import Mathlib

/-!
Shallow embedding of the Istio galley injection version analyzer
(`galley/pkg/config/analysis/analyzers/injection/injection-version.go`).

Strings from the Go code are kept as `String`; image references are parsed
at the character level (`List Char`), mirroring `strings.Split` on the
one-character separator `":"`.  Extracted version strings are `List Char`.
Go `map[string]string` label/annotation mappings are association lists with
the zero-value `""` returned for a missing key, as Go map indexing does.
Go `map[string]struct{}` sets are duplicate-free lists grown by
first-seen-order insertion; their nondeterministic iteration order is
addressed by the permutation theorems below.
-/

namespace IstioInjection

/-- A container of a pod spec: the two fields the analyzer reads
(`container.Name`, `container.Image`). -/
structure Container where
  name : String
  image : String
deriving DecidableEq

/-- The fields of a `v1.Pod` payload the analyzer reads: its labels
(`pod.Labels`), its namespace (`pod.GetNamespace()`) and its containers
(`pod.Spec.Containers`). -/
structure Pod where
  labels : List (String × String)
  getNamespace : String
  containers : List Container
deriving DecidableEq

/-- The resource metadata the analyzer reads: `r.Metadata.FullName.String()`,
`r.Metadata.Labels` and `r.Metadata.Annotations`. -/
structure Metadata where
  fullName : String
  labels : List (String × String)
  annotations : List (String × String)
deriving DecidableEq

/-- The typed payload `r.Message` of a resource: a `*v1.Pod`, or anything
else (on which the type assertion `r.Message.(*v1.Pod)` fails). -/
inductive Message where
  | pod (p : Pod)
  | other
deriving DecidableEq

/-- A `resource.Instance`: metadata plus typed payload. -/
structure Instance where
  metadata : Metadata
  message : Message
deriving DecidableEq

/-- Go map[string]string indexing: the value stored at the key, or the zero
value `""` when the key is absent. -/
def lookupOrEmpty (m : List (String × String)) (k : String) : String :=
  match m.find? (fun kv => kv.1 == k) with
  | some kv => kv.2
  | none => ""

/-- `const injectorName = "sidecar-injector-webhook"`. -/
def injectorName : String := "sidecar-injector-webhook"

/-- `const sidecarInjectorName = "sidecarInjectorWebhook"`. -/
def sidecarInjectorName : String := "sidecarInjectorWebhook"

/-- Modelled from the spec: the namespace injection-enable label key, a
well-known constant declared elsewhere in the repository (only referenced
from the analyzed file). -/
def InjectionLabelName : String := "istio-injection"

/-- Modelled from the spec: the enabling value of the injection label, a
well-known constant declared elsewhere in the repository. -/
def InjectionLabelEnableValue : String := "enabled"

/-- Modelled from the spec: the well-known proxy sidecar container name, a
constant declared elsewhere in the repository. -/
def istioProxyName : String := "istio-proxy"

/-- The pod annotation key signaling an explicit proxy-image override
(literal in the Go source). -/
def proxyImageAnnotationKey : String := "sidecar.istio.io/proxyImage"

/-- Go `strings.Split` restricted to a one-character separator, over the
character list of the string: `splitOnChar ':' "a:b".data = ["a".data,
"b".data]`, and splitting the empty list yields `[[]]` just as
`strings.Split("", ":") = [""]`. -/
def splitOnChar (sep : Char) : List Char → List (List Char)
  | [] => [[]]
  | c :: cs =>
    if c = sep then
      [] :: splitOnChar sep cs
    else
      match splitOnChar sep cs with
      | [] => [[c]]
      | p :: ps => (c :: p) :: ps

/-- `getContainerNameVersion`: split the image reference on `":"`; only a
split into exactly two parts yields the tag part, anything else yields the
empty (unknown) version. -/
def getContainerNameVersion (c : Container) : List Char :=
  match splitOnChar ':' c.image.data with
  | [_, v] => v
  | _ => []

/-- The container loop of `tryReturnSidecarInjectorVersion`: skip containers
not named `injectorName`; at the first one so named, return its parsed
version (whatever it is); an exhausted loop returns `""`. -/
def findInjectorContainerVersion : List Container → List Char
  | [] => []
  | c :: cs =>
    if c.name ≠ injectorName then findInjectorContainerVersion cs
    else getContainerNameVersion c

/-- `tryReturnSidecarInjectorVersion`: empty unless the pod's `app` label is
`sidecarInjectorName`; otherwise the version of its injector container. -/
def tryReturnSidecarInjectorVersion (p : Pod) : List Char :=
  if lookupOrEmpty p.labels "app" ≠ sidecarInjectorName then []
  else findInjectorContainerVersion p.containers

/-- Insertion into a Go map-backed set: a already-present key changes
nothing, a new key is added (kept in first-seen order). -/
def insertNew {α : Type} [DecidableEq α] (s : List α) (v : α) : List α :=
  if v ∈ s then s else s ++ [v]

/-- The namespace pass of `Analyze`: collect the full names of the
namespaces whose injection label carries the exact enabling value, into the
`injectedNamespaces` set (accumulator form of the `ForEach` loop). -/
def injectedNamespacesFrom (acc : List String) : List Instance → List String
  | [] => acc
  | r :: rs =>
    injectedNamespacesFrom
      (if lookupOrEmpty r.metadata.labels InjectionLabelName = InjectionLabelEnableValue
       then insertNew acc r.metadata.fullName else acc) rs

/-- The `injectedNamespaces` set built by the namespace pass. -/
def injectedNamespaces (nss : List Instance) : List String :=
  injectedNamespacesFrom [] nss

/-- A `podVersion` record: a resource paired with its detected proxy
version. -/
structure podVersion where
  Resource : Instance
  ProxyVersion : List Char
deriving DecidableEq

/-- The proxy-container loop of the pod visitor: skip containers not named
`istioProxyName`, skip ones whose version does not parse, record the rest
(the Go loop appends and continues scanning). -/
def proxyRecords (r : Instance) : List Container → List podVersion
  | [] => []
  | c :: cs =>
    if c.name ≠ istioProxyName then proxyRecords r cs
    else
      if getContainerNameVersion c = [] then proxyRecords r cs
      else ⟨r, getContainerNameVersion c⟩ :: proxyRecords r cs

/-- The body of the pod `ForEach` visitor, for one pod resource `r` with
payload `p`, threading the `(injectorVersions, podVersions)` state: note the
injector version if any, then apply the namespace-eligibility filter, the
override-annotation filter, and the proxy-container scan. -/
def visitPod (enabled : List String) (st : List (List Char) × List podVersion)
    (r : Instance) (p : Pod) : List (List Char) × List podVersion :=
  let ivs :=
    if tryReturnSidecarInjectorVersion p ≠ [] then
      insertNew st.1 (tryReturnSidecarInjectorVersion p)
    else st.1
  if p.getNamespace ∉ enabled then (ivs, st.2)
  else if lookupOrEmpty r.metadata.annotations proxyImageAnnotationKey ≠ "" then (ivs, st.2)
  else (ivs, st.2 ++ proxyRecords r p.containers)

/-- The pod pass of `Analyze`: visit every resource of the Pod collection;
the type assertion `r.Message.(*v1.Pod)` of the Go visitor is modelled as a
failure (`none`) on a payload that is not a Pod. -/
def podPass (enabled : List String) (st : List (List Char) × List podVersion) :
    List Instance → Option (List (List Char) × List podVersion)
  | [] => some st
  | r :: rs =>
    match r.message with
    | Message.pod p => podPass enabled (visitPod enabled st r p) rs
    | Message.other => none

/-- A finding reported through
`msg.NewIstioProxyVersionMismatch(pv.Resource, pv.ProxyVersion, iv)`. -/
structure Finding where
  r : Instance
  proxyVersion : List Char
  injectionVersion : List Char
deriving DecidableEq

/-- The inner loop of the final cross-join: one injector version against
every recorded pod version, reporting every disagreement. -/
def crossJoinInner (iv : List Char) : List podVersion → List Finding
  | [] => []
  | q :: qs =>
    if q.ProxyVersion ≠ iv then ⟨q.Resource, q.ProxyVersion, iv⟩ :: crossJoinInner iv qs
    else crossJoinInner iv qs

/-- The final cross-join of `Analyze`: every injector version against every
recorded pod version. -/
def crossJoin (recs : List podVersion) : List (List Char) → List Finding
  | [] => []
  | iv :: ivs => crossJoinInner iv recs ++ crossJoin recs ivs

/-- `Analyze`: the whole check, over the Namespace collection and the Pod
collection of one snapshot; `none` models the destructive failure of the
typed-payload extraction on a non-Pod payload in the Pod collection. -/
def Analyze (nss pods : List Instance) : Option (List Finding) :=
  match podPass (injectedNamespaces nss) ([], []) pods with
  | none => none
  | some st => some (crossJoin st.2 st.1)

/-- The typed-payload extraction of the whole Pod collection at the
collaborator boundary: the pod list with payloads, or a failure. -/
def toPodList : List Instance → Option (List (Instance × Pod))
  | [] => some []
  | r :: rs =>
    match r.message, toPodList rs with
    | Message.pod p, some l => some ((r, p) :: l)
    | _, _ => none

/-- The injector version set accumulated over an extracted pod list
(the first state component of the pod pass, decomposed). -/
def injectorVersionsFrom (acc : List (List Char)) :
    List (Instance × Pod) → List (List Char)
  | [] => acc
  | rp :: l =>
    injectorVersionsFrom
      (if tryReturnSidecarInjectorVersion rp.2 ≠ [] then
        insertNew acc (tryReturnSidecarInjectorVersion rp.2)
       else acc) l

/-- The injector version set of a snapshot's pod list. -/
def injectorVersionsOf (l : List (Instance × Pod)) : List (List Char) :=
  injectorVersionsFrom [] l

/-- The pod version record list accumulated over an extracted pod list
(the second state component of the pod pass, decomposed). -/
def podVersionsOf (enabled : List String) : List (Instance × Pod) → List podVersion
  | [] => []
  | rp :: l =>
    (if rp.2.getNamespace ∈ enabled ∧
        lookupOrEmpty rp.1.metadata.annotations proxyImageAnnotationKey = ""
     then proxyRecords rp.1 rp.2.containers else []) ++ podVersionsOf enabled l

/-! ### Concrete sample resources (used by the witness instantiations) -/

/-- The character list of the version string 1.1.0. -/
def v110 : List Char := "1.1.0".data

/-- The character list of the version string 1.2.0. -/
def v120 : List Char := "1.2.0".data

/-- The character list of the version string 1.3.0. -/
def v130 : List Char := "1.3.0".data

/-- A namespace resource with the injection-enable label. -/
def sampleNs : Instance :=
  ⟨⟨"default", [(InjectionLabelName, InjectionLabelEnableValue)], []⟩, Message.other⟩

/-- A namespace resource without the injection-enable label. -/
def nsOther : Instance := ⟨⟨"other", [], []⟩, Message.other⟩

/-- A sidecar injector pod at version 1.2.0. -/
def injPod12 : Pod :=
  ⟨[("app", sidecarInjectorName)], "istio-system",
   [⟨injectorName, "docker.io/istio/sidecar_injector:1.2.0"⟩]⟩

/-- The resource wrapping `injPod12`. -/
def injRes12 : Instance := ⟨⟨"istio-system/inj12", [], []⟩, Message.pod injPod12⟩

/-- A sidecar injector pod at version 1.3.0. -/
def injPod13 : Pod :=
  ⟨[("app", sidecarInjectorName)], "istio-system",
   [⟨injectorName, "docker.io/istio/sidecar_injector:1.3.0"⟩]⟩

/-- The resource wrapping `injPod13`. -/
def injRes13 : Instance := ⟨⟨"istio-system/inj13", [], []⟩, Message.pod injPod13⟩

/-- A workload pod with proxy version 1.1.0 in the enabled namespace. -/
def workPod11 : Pod :=
  ⟨[], "default", [⟨istioProxyName, "docker.io/istio/proxyv2:1.1.0"⟩]⟩

/-- The resource wrapping `workPod11`. -/
def workRes11 : Instance := ⟨⟨"default/w11", [], []⟩, Message.pod workPod11⟩

/-- A workload pod with proxy version 1.2.0 in the enabled namespace. -/
def workPod12 : Pod :=
  ⟨[], "default", [⟨istioProxyName, "docker.io/istio/proxyv2:1.2.0"⟩]⟩

/-- The resource wrapping `workPod12`. -/
def workRes12 : Instance := ⟨⟨"default/w12", [], []⟩, Message.pod workPod12⟩

/-- A workload pod resource carrying a non-empty proxy-image override
annotation. -/
def ovrRes : Instance :=
  ⟨⟨"default/ovr", [], [(proxyImageAnnotationKey, "custom/proxy:1.0")]⟩,
   Message.pod workPod11⟩

/-- A pod with two proxy-named containers (allowed by the data model, though
Kubernetes itself enforces unique container names within a pod). -/
def dupPod : Pod :=
  ⟨[], "default",
   [⟨istioProxyName, "docker.io/istio/proxyv2:1.1.0"⟩,
    ⟨istioProxyName, "docker.io/istio/proxyv2:1.1.0"⟩]⟩

/-- The resource wrapping `dupPod`. -/
def dupRes : Instance := ⟨⟨"default/dup", [], []⟩, Message.pod dupPod⟩

/-- A pod that is both an injector pod (version 1.2.0) and an injected
workload (proxy version 1.1.0) in the enabled namespace. -/
def dualPod : Pod :=
  ⟨[("app", sidecarInjectorName)], "default",
   [⟨injectorName, "docker.io/istio/sidecar_injector:1.2.0"⟩,
    ⟨istioProxyName, "docker.io/istio/proxyv2:1.1.0"⟩]⟩

/-- The resource wrapping `dualPod`. -/
def dualRes : Instance := ⟨⟨"default/dual", [], []⟩, Message.pod dualPod⟩

/-! ### Structural lemmas about the accumulator sets and record lists -/

theorem mem_insertNew {α : Type} [DecidableEq α] {s : List α} {v x : α} :
    x ∈ insertNew s v ↔ x ∈ s ∨ x = v := by
  unfold insertNew
  split_ifs with h
  · constructor
    · exact Or.inl
    · rintro (hx | rfl)
      · exact hx
      · exact h
  · simp [List.mem_append]

theorem nodup_insertNew {α : Type} [DecidableEq α] {s : List α} {v : α}
    (h : s.Nodup) : (insertNew s v).Nodup := by
  unfold insertNew
  split_ifs with hv
  · exact h
  · simpa [List.nodup_append, hv] using h

theorem mem_injectedNamespacesFrom {acc : List String} {rs : List Instance} {x : String} :
    x ∈ injectedNamespacesFrom acc rs ↔
      x ∈ acc ∨ ∃ r ∈ rs,
        lookupOrEmpty r.metadata.labels InjectionLabelName = InjectionLabelEnableValue ∧
        r.metadata.fullName = x := by
  induction rs generalizing acc with
  | nil => simp [injectedNamespacesFrom]
  | cons r rs ih =>
    simp only [injectedNamespacesFrom, ih, List.mem_cons]
    split_ifs with h
    · rw [mem_insertNew]
      constructor
      · rintro ((hx | rfl) | ⟨r', hr', hprops⟩)
        · exact Or.inl hx
        · exact Or.inr ⟨r, Or.inl rfl, h, rfl⟩
        · exact Or.inr ⟨r', Or.inr hr', hprops⟩
      · rintro (hx | ⟨r', (rfl | hr'), hl, hf⟩)
        · exact Or.inl (Or.inl hx)
        · exact Or.inl (Or.inr hf.symm)
        · exact Or.inr ⟨r', hr', hl, hf⟩
    · constructor
      · rintro (hx | ⟨r', hr', hprops⟩)
        · exact Or.inl hx
        · exact Or.inr ⟨r', Or.inr hr', hprops⟩
      · rintro (hx | ⟨r', (rfl | hr'), hl, hf⟩)
        · exact Or.inl hx
        · exact absurd hl h
        · exact Or.inr ⟨r', hr', hl, hf⟩

theorem mem_injectedNamespaces {nss : List Instance} {x : String} :
    x ∈ injectedNamespaces nss ↔
      ∃ r ∈ nss,
        lookupOrEmpty r.metadata.labels InjectionLabelName = InjectionLabelEnableValue ∧
        r.metadata.fullName = x := by
  simp [injectedNamespaces, mem_injectedNamespacesFrom]

theorem mem_injectorVersionsFrom {acc : List (List Char)} {l : List (Instance × Pod)}
    {v : List Char} :
    v ∈ injectorVersionsFrom acc l ↔
      v ∈ acc ∨ (v ≠ [] ∧ ∃ rp ∈ l, tryReturnSidecarInjectorVersion rp.2 = v) := by
  induction l generalizing acc with
  | nil => simp [injectorVersionsFrom]
  | cons rp l ih =>
    simp only [injectorVersionsFrom, ih, List.mem_cons]
    split_ifs with h
    · rw [mem_insertNew]
      constructor
      · rintro ((hx | rfl) | ⟨hv, r', hr', hprops⟩)
        · exact Or.inl hx
        · exact Or.inr ⟨h, rp, Or.inl rfl, rfl⟩
        · exact Or.inr ⟨hv, r', Or.inr hr', hprops⟩
      · rintro (hx | ⟨hv, r', (rfl | hr'), hl⟩)
        · exact Or.inl (Or.inl hx)
        · exact Or.inl (Or.inr hl.symm)
        · exact Or.inr ⟨hv, r', hr', hl⟩
    · push_neg at h
      constructor
      · rintro (hx | ⟨hv, r', hr', hprops⟩)
        · exact Or.inl hx
        · exact Or.inr ⟨hv, r', Or.inr hr', hprops⟩
      · rintro (hx | ⟨hv, r', (rfl | hr'), hl⟩)
        · exact Or.inl hx
        · exact absurd (h ▸ hl) hv.symm
        · exact Or.inr ⟨hv, r', hr', hl⟩

theorem mem_injectorVersionsOf {l : List (Instance × Pod)} {v : List Char} :
    v ∈ injectorVersionsOf l ↔
      v ≠ [] ∧ ∃ rp ∈ l, tryReturnSidecarInjectorVersion rp.2 = v := by
  simp [injectorVersionsOf, mem_injectorVersionsFrom]

theorem nodup_injectorVersionsFrom {acc : List (List Char)} {l : List (Instance × Pod)}
    (h : acc.Nodup) : (injectorVersionsFrom acc l).Nodup := by
  induction l generalizing acc with
  | nil => exact h
  | cons rp l ih =>
    simp only [injectorVersionsFrom]
    split_ifs with hv
    · exact ih (nodup_insertNew h)
    · exact ih h

theorem nodup_injectorVersionsOf {l : List (Instance × Pod)} :
    (injectorVersionsOf l).Nodup :=
  nodup_injectorVersionsFrom List.nodup_nil

theorem mem_proxyRecords {r : Instance} {cs : List Container} {q : podVersion} :
    q ∈ proxyRecords r cs ↔
      ∃ c ∈ cs, c.name = istioProxyName ∧ getContainerNameVersion c ≠ [] ∧
        q = ⟨r, getContainerNameVersion c⟩ := by
  induction cs with
  | nil => simp [proxyRecords]
  | cons c cs ih =>
    simp only [proxyRecords]
    split_ifs with h1 h2
    · rw [ih]
      simp only [List.mem_cons]
      constructor
      · rintro ⟨c', hc', hprops⟩
        exact ⟨c', Or.inr hc', hprops⟩
      · rintro ⟨c', (rfl | hc'), hn, hv, hq⟩
        · exact absurd hn h1
        · exact ⟨c', hc', hn, hv, hq⟩
    · rw [ih]
      simp only [List.mem_cons]
      constructor
      · rintro ⟨c', hc', hprops⟩
        exact ⟨c', Or.inr hc', hprops⟩
      · rintro ⟨c', (rfl | hc'), hn, hv, hq⟩
        · exact absurd h2 hv
        · exact ⟨c', hc', hn, hv, hq⟩
    · rw [List.mem_cons, ih]
      constructor
      · rintro (rfl | ⟨c', hc', hprops⟩)
        · exact ⟨c, List.mem_cons_self c cs, not_not.mp h1, h2, rfl⟩
        · exact ⟨c', List.mem_cons_of_mem c hc', hprops⟩
      · rintro ⟨c', hc', hn, hv, hq⟩
        rcases List.mem_cons.mp hc' with rfl | hc'
        · exact Or.inl hq
        · exact Or.inr ⟨c', hc', hn, hv, hq⟩

theorem resource_of_mem_proxyRecords {r : Instance} {cs : List Container} {q : podVersion}
    (h : q ∈ proxyRecords r cs) : q.Resource = r := by
  obtain ⟨c, _, _, _, rfl⟩ := mem_proxyRecords.mp h
  rfl

theorem mem_podVersionsOf {enabled : List String} {l : List (Instance × Pod)}
    {q : podVersion} :
    q ∈ podVersionsOf enabled l ↔
      ∃ rp ∈ l, rp.2.getNamespace ∈ enabled ∧
        lookupOrEmpty rp.1.metadata.annotations proxyImageAnnotationKey = "" ∧
        q ∈ proxyRecords rp.1 rp.2.containers := by
  induction l with
  | nil => simp [podVersionsOf]
  | cons rp l ih =>
    simp only [podVersionsOf, List.mem_append, ih, List.mem_cons]
    split_ifs with h
    · constructor
      · rintro (hq | ⟨rp', hrp', hprops⟩)
        · exact ⟨rp, Or.inl rfl, h.1, h.2, hq⟩
        · exact ⟨rp', Or.inr hrp', hprops⟩
      · rintro ⟨rp', (rfl | hrp'), hns, hov, hq⟩
        · exact Or.inl hq
        · exact Or.inr ⟨rp', hrp', hns, hov, hq⟩
    · constructor
      · rintro (hq | ⟨rp', hrp', hprops⟩)
        · simp at hq
        · exact ⟨rp', Or.inr hrp', hprops⟩
      · rintro ⟨rp', (rfl | hrp'), hns, hov, hq⟩
        · exact absurd ⟨hns, hov⟩ h
        · exact Or.inr ⟨rp', hrp', hns, hov, hq⟩

theorem mem_crossJoinInner {iv : List Char} {recs : List podVersion} {f : Finding} :
    f ∈ crossJoinInner iv recs ↔
      ∃ q ∈ recs, q.ProxyVersion ≠ iv ∧ f = ⟨q.Resource, q.ProxyVersion, iv⟩ := by
  induction recs with
  | nil => simp [crossJoinInner]
  | cons q qs ih =>
    simp only [crossJoinInner]
    split_ifs with h
    · rw [List.mem_cons, ih]
      constructor
      · rintro (rfl | ⟨q', hq', hprops⟩)
        · exact ⟨q, List.mem_cons_self q qs, h, rfl⟩
        · exact ⟨q', List.mem_cons_of_mem q hq', hprops⟩
      · rintro ⟨q', hq', hne, hf⟩
        rcases List.mem_cons.mp hq' with rfl | hq'
        · exact Or.inl hf
        · exact Or.inr ⟨q', hq', hne, hf⟩
    · rw [ih]
      simp only [List.mem_cons]
      constructor
      · rintro ⟨q', hq', hprops⟩
        exact ⟨q', Or.inr hq', hprops⟩
      · rintro ⟨q', (rfl | hq'), hne, hf⟩
        · exact absurd hne h
        · exact ⟨q', hq', hne, hf⟩

theorem mem_crossJoin {recs : List podVersion} {ivs : List (List Char)} {f : Finding} :
    f ∈ crossJoin recs ivs ↔
      f.injectionVersion ∈ ivs ∧ (⟨f.r, f.proxyVersion⟩ : podVersion) ∈ recs ∧
        f.proxyVersion ≠ f.injectionVersion := by
  cases f with
  | mk fr fpv fiv =>
    induction ivs with
    | nil => simp [crossJoin]
    | cons iv ivs ih =>
      simp only [crossJoin, List.mem_append, ih, mem_crossJoinInner, List.mem_cons]
      constructor
      · rintro (⟨q, hq, hne, heq⟩ | ⟨hiv, hq, hne⟩)
        · rw [Finding.mk.injEq] at heq
          obtain ⟨rfl, rfl, rfl⟩ := heq
          exact ⟨Or.inl rfl, hq, hne⟩
        · exact ⟨Or.inr hiv, hq, hne⟩
      · rintro ⟨(hiv | hiv), hq, hne⟩
        · subst hiv
          exact Or.inl ⟨⟨fr, fpv⟩, hq, hne, rfl⟩
        · exact Or.inr ⟨hiv, hq, hne⟩

theorem toPodList_mem {pods : List Instance} {l : List (Instance × Pod)}
    (h : toPodList pods = some l) (r : Instance) (p : Pod) :
    (r, p) ∈ l ↔ r ∈ pods ∧ r.message = Message.pod p := by
  induction pods generalizing l with
  | nil =>
    simp only [toPodList, Option.some.injEq] at h
    subst h
    simp
  | cons r' rs ih =>
    cases hm : r'.message with
    | other => simp [toPodList, hm] at h
    | pod p' =>
      cases hl' : toPodList rs with
      | none => simp [toPodList, hm, hl'] at h
      | some l' =>
        simp only [toPodList, hm, hl', Option.some.injEq] at h
        subst h
        rw [List.mem_cons, ih hl', List.mem_cons]
        constructor
        · rintro (hEq | ⟨hr, hmsg⟩)
          · rw [Prod.mk.injEq] at hEq
            obtain ⟨rfl, rfl⟩ := hEq
            exact ⟨Or.inl rfl, hm⟩
          · exact ⟨Or.inr hr, hmsg⟩
        · rintro ⟨(rfl | hr), hmsg⟩
          · rw [hm] at hmsg
            cases hmsg
            exact Or.inl rfl
          · exact Or.inr ⟨hr, hmsg⟩

theorem toPodList_of_shape {pods : List Instance}
    (h : ∀ r ∈ pods, ∃ p, r.message = Message.pod p) :
    ∃ l, toPodList pods = some l := by
  induction pods with
  | nil => exact ⟨[], rfl⟩
  | cons r rs ih =>
    obtain ⟨p, hp⟩ := h r (List.mem_cons_self r rs)
    obtain ⟨l, hl⟩ := ih (fun r' hr' => h r' (List.mem_cons_of_mem r hr'))
    exact ⟨(r, p) :: l, by simp [toPodList, hp, hl]⟩

/-! ### Decomposition of the pod pass into its two accumulators -/

theorem visitPod_eq (enabled : List String) (i0 : List (List Char)) (r0 : List podVersion)
    (r : Instance) (p : Pod) :
    visitPod enabled (i0, r0) r p =
      ((if tryReturnSidecarInjectorVersion p ≠ [] then
          insertNew i0 (tryReturnSidecarInjectorVersion p) else i0),
       r0 ++ (if p.getNamespace ∈ enabled ∧
                lookupOrEmpty r.metadata.annotations proxyImageAnnotationKey = ""
              then proxyRecords r p.containers else [])) := by
  simp only [visitPod]
  split_ifs with h1 h2 h3 <;> simp_all

theorem podPass_eq (enabled : List String) (i0 : List (List Char)) (r0 : List podVersion)
    (pods : List Instance) :
    podPass enabled (i0, r0) pods =
      (toPodList pods).map
        (fun l => (injectorVersionsFrom i0 l, r0 ++ podVersionsOf enabled l)) := by
  induction pods generalizing i0 r0 with
  | nil => simp [podPass, toPodList, injectorVersionsFrom, podVersionsOf]
  | cons r rs ih =>
    cases hm : r.message with
    | other => simp [podPass, toPodList, hm]
    | pod p =>
      simp only [podPass, hm]
      rw [visitPod_eq, ih]
      cases hl' : toPodList rs with
      | none => simp [toPodList, hm, hl']
      | some l' =>
        simp [toPodList, hm, hl', injectorVersionsFrom, podVersionsOf,
          List.append_assoc]

theorem Analyze_eq (nss pods : List Instance) :
    Analyze nss pods =
      (toPodList pods).map
        (fun l =>
          crossJoin (podVersionsOf (injectedNamespaces nss) l) (injectorVersionsOf l)) := by
  unfold Analyze
  rw [podPass_eq]
  cases toPodList pods <;> simp [injectorVersionsOf]

theorem Analyze_some_iff {nss pods : List Instance} {fs : List Finding} :
    Analyze nss pods = some fs ↔
      ∃ l, toPodList pods = some l ∧
        fs = crossJoin (podVersionsOf (injectedNamespaces nss) l) (injectorVersionsOf l) := by
  rw [Analyze_eq]
  cases toPodList pods <;> simp [eq_comm]

/-! ### Image-tag parsing lemmas -/

theorem splitOnChar_ne_nil (sep : Char) (l : List Char) : splitOnChar sep l ≠ [] := by
  cases l with
  | nil => simp [splitOnChar]
  | cons c cs =>
    simp only [splitOnChar]
    split_ifs with h
    · simp
    · cases splitOnChar sep cs <;> simp

theorem length_splitOnChar (sep : Char) (l : List Char) :
    (splitOnChar sep l).length = l.count sep + 1 := by
  induction l with
  | nil => simp [splitOnChar]
  | cons c cs ih =>
    by_cases h : c = sep
    · simp [splitOnChar, h, List.count_cons, ih]
    · obtain ⟨p, ps, hps⟩ := List.exists_cons_of_ne_nil (splitOnChar_ne_nil sep cs)
      rw [hps] at ih
      simp only [List.length_cons] at ih
      simp [splitOnChar, h, hps, List.count_cons]
      omega

theorem getContainerNameVersion_eq_nil {c : Container}
    (h : c.image.data.count ':' ≠ 1) : getContainerNameVersion c = [] := by
  have hlen := length_splitOnChar ':' c.image.data
  unfold getContainerNameVersion
  rcases hsp : splitOnChar ':' c.image.data with _ | ⟨a, _ | ⟨b, _ | ⟨c', rest⟩⟩⟩
  · rfl
  · rfl
  · rw [hsp] at hlen
    simp only [List.length_cons, List.length_nil] at hlen
    omega
  · rfl

theorem findInjectorContainerVersion_eq (cs : List Container) :
    findInjectorContainerVersion cs =
      match cs.find? (fun c => c.name == injectorName) with
      | some c => getContainerNameVersion c
      | none => [] := by
  induction cs with
  | nil => simp [findInjectorContainerVersion]
  | cons c cs ih =>
    by_cases h : c.name = injectorName
    · rw [List.find?_cons_of_pos _ (by simp [h])]
      simp [findInjectorContainerVersion, h]
    · rw [List.find?_cons_of_neg _ (by simp [h])]
      simp [findInjectorContainerVersion, h, ih]

/-! ### Counting lemmas for the cross-join -/

theorem crossJoinInner_eq (iv' : List Char) (recs : List podVersion) :
    crossJoinInner iv' recs =
      (recs.filter (fun q => decide (q.ProxyVersion ≠ iv'))).map
        (fun q => ⟨q.Resource, q.ProxyVersion, iv'⟩) := by
  induction recs with
  | nil => rfl
  | cons q qs ih =>
    simp only [crossJoinInner, List.filter_cons]
    by_cases h : q.ProxyVersion ≠ iv' <;> simp [h, ih]

theorem count_crossJoinInner (P : Instance) (pv iv iv' : List Char)
    (recs : List podVersion) :
    (crossJoinInner iv' recs).count ⟨P, pv, iv⟩ =
      if iv' = iv ∧ pv ≠ iv' then recs.count ⟨P, pv⟩ else 0 := by
  rw [crossJoinInner_eq, List.count_eq_countP, List.countP_map, List.countP_filter]
  by_cases h : iv' = iv ∧ pv ≠ iv'
  · obtain ⟨h1, h2⟩ := h
    subst h1
    rw [if_pos ⟨rfl, h2⟩, List.count_eq_countP]
    apply List.countP_congr
    intro q _
    cases q with
    | mk qr qv =>
      simp only [Function.comp_apply, beq_iff_eq, Finding.mk.injEq, podVersion.mk.injEq]
      by_cases hqv : qv = pv
      · subst hqv
        simp [h2]
      · simp [hqv]
  · rw [if_neg h]
    rw [List.countP_eq_zero]
    intro q _
    cases q with
    | mk qr qv =>
      simp only [Function.comp_apply, beq_iff_eq, Finding.mk.injEq, Bool.and_eq_true,
        decide_eq_true_eq, not_and]
      rintro ⟨hr, hv, hiv⟩ hne
      exact h ⟨hiv, by rw [← hv]; exact hne⟩

theorem count_crossJoin (P : Instance) (pv iv : List Char) (recs : List podVersion)
    {ivs : List (List Char)} (hnd : ivs.Nodup) :
    (crossJoin recs ivs).count ⟨P, pv, iv⟩ =
      if iv ∈ ivs ∧ pv ≠ iv then recs.count ⟨P, pv⟩ else 0 := by
  induction ivs with
  | nil => simp [crossJoin]
  | cons iv' ivs ih =>
    rw [List.nodup_cons] at hnd
    simp only [crossJoin, List.count_append]
    rw [count_crossJoinInner, ih hnd.2]
    by_cases h1 : iv' = iv
    · subst h1
      have hnotmem : iv' ∉ ivs := hnd.1
      split_ifs <;> simp_all [List.mem_cons]
    · split_ifs <;> simp_all [List.mem_cons]

theorem countP_r_crossJoinInner (P : Instance) (pv iv' : List Char)
    (recs : List podVersion)
    (hone : ∀ q ∈ recs, q.Resource = P → q = ⟨P, pv⟩) :
    (crossJoinInner iv' recs).countP (fun f => decide (f.r = P)) =
      if pv ≠ iv' then recs.count ⟨P, pv⟩ else 0 := by
  rw [crossJoinInner_eq, List.countP_map, List.countP_filter]
  trans recs.countP (fun q => decide (q = ⟨P, pv⟩) && decide (pv ≠ iv'))
  · apply List.countP_congr
    intro q hq
    simp only [Function.comp_apply, Bool.and_eq_true, decide_eq_true_eq]
    constructor
    · rintro ⟨hqr, hne⟩
      have hq' := hone q hq hqr
      subst hq'
      exact ⟨rfl, hne⟩
    · rintro ⟨rfl, hne⟩
      exact ⟨rfl, hne⟩
  · by_cases h : pv ≠ iv'
    · rw [if_pos h, List.count_eq_countP]
      apply List.countP_congr
      intro q _
      simp only [Bool.and_eq_true, decide_eq_true_eq, beq_iff_eq]
      exact and_iff_left h
    · rw [if_neg h]
      push_neg at h
      subst h
      simp

theorem countP_r_crossJoin (P : Instance) (pv : List Char) (recs : List podVersion)
    (ivs : List (List Char))
    (hone : ∀ q ∈ recs, q.Resource = P → q = ⟨P, pv⟩)
    (hcnt : recs.count ⟨P, pv⟩ = 1) :
    (crossJoin recs ivs).countP (fun f => decide (f.r = P)) =
      (ivs.filter (fun x => decide (x ≠ pv))).length := by
  induction ivs with
  | nil => simp [crossJoin]
  | cons iv' ivs ih =>
    simp only [crossJoin, List.countP_append,
      countP_r_crossJoinInner P pv iv' recs hone, hcnt, ih, List.filter_cons]
    by_cases h : iv' = pv
    · simp [h]
    · simp [h, Ne.symm h]
      omega

/-! ### Duplication bounds -/

theorem length_proxyRecords_le (r : Instance) (cs : List Container) :
    (proxyRecords r cs).length ≤
      cs.countP (fun c => decide (c.name = istioProxyName)) := by
  induction cs with
  | nil => simp [proxyRecords]
  | cons c cs ih =>
    simp only [proxyRecords, List.countP_cons]
    split_ifs with h1 h2 <;> simp_all
    omega

theorem countP_r_podVersionsOf_eq_zero {enabled : List String}
    {l : List (Instance × Pod)} {P : Instance} (h : P ∉ l.map Prod.fst) :
    (podVersionsOf enabled l).countP (fun q => decide (q.Resource = P)) = 0 := by
  rw [List.countP_eq_zero]
  intro q hq
  obtain ⟨rp, hrp, _, _, hqrec⟩ := mem_podVersionsOf.mp hq
  have hres : q.Resource = rp.1 := resource_of_mem_proxyRecords hqrec
  simp only [decide_eq_true_eq]
  intro hQ
  exact h (List.mem_map.mpr ⟨rp, hrp, hres.symm.trans hQ⟩)

theorem countP_r_podVersionsOf_le_one {enabled : List String}
    {l : List (Instance × Pod)} {P : Instance}
    (hnd : (l.map Prod.fst).Nodup)
    (hone : ∀ rp ∈ l,
      rp.2.containers.countP (fun c => decide (c.name = istioProxyName)) ≤ 1) :
    (podVersionsOf enabled l).countP (fun q => decide (q.Resource = P)) ≤ 1 := by
  induction l with
  | nil => simp [podVersionsOf]
  | cons rp l ih =>
    simp only [List.map_cons, List.nodup_cons] at hnd
    simp only [podVersionsOf, List.countP_append]
    have hblock :
        (if rp.2.getNamespace ∈ enabled ∧
            lookupOrEmpty rp.1.metadata.annotations proxyImageAnnotationKey = ""
         then proxyRecords rp.1 rp.2.containers else []).countP
            (fun q => decide (q.Resource = P)) ≤
          (proxyRecords rp.1 rp.2.containers).countP
            (fun q => decide (q.Resource = P)) := by
      split_ifs <;> simp
    by_cases hP : rp.1 = P
    · have hrest : (podVersionsOf enabled l).countP
          (fun q => decide (q.Resource = P)) = 0 :=
        countP_r_podVersionsOf_eq_zero (hP ▸ hnd.1)
      have h1 : (proxyRecords rp.1 rp.2.containers).countP
          (fun q => decide (q.Resource = P)) ≤ 1 :=
        le_trans (List.countP_le_length _)
          (le_trans (length_proxyRecords_le rp.1 rp.2.containers)
            (hone rp (List.mem_cons_self rp l)))
      omega
    · have hblock0 : (proxyRecords rp.1 rp.2.containers).countP
          (fun q => decide (q.Resource = P)) = 0 := by
        rw [List.countP_eq_zero]
        intro q hq
        have := resource_of_mem_proxyRecords hq
        simp only [decide_eq_true_eq]
        intro hQ
        exact hP (this.symm.trans hQ)
      have hrest := ih hnd.2 (fun rp' h' => hone rp' (List.mem_cons_of_mem rp h'))
      omega

theorem countP_riv_crossJoinInner_le (P : Instance) (iv iv' : List Char)
    (recs : List podVersion) :
    (crossJoinInner iv' recs).countP
        (fun f => decide (f.r = P ∧ f.injectionVersion = iv)) ≤
      if iv' = iv then recs.countP (fun q => decide (q.Resource = P)) else 0 := by
  rw [crossJoinInner_eq, List.countP_map, List.countP_filter]
  by_cases h : iv' = iv
  · subst h
    rw [if_pos rfl]
    apply List.countP_mono_left
    intro q _
    simp only [Function.comp_apply, Bool.and_eq_true, decide_eq_true_eq]
    rintro ⟨⟨hqr, _⟩, _⟩
    exact hqr
  · rw [if_neg h, Nat.le_zero, List.countP_eq_zero]
    intro q _
    simp only [Function.comp_apply, Bool.and_eq_true, decide_eq_true_eq, not_and]
    rintro ⟨_, hiv⟩
    exact absurd hiv h

theorem countP_riv_crossJoin_eq_zero {P : Instance} {iv : List Char}
    {recs : List podVersion} {ivs : List (List Char)} (h : iv ∉ ivs) :
    (crossJoin recs ivs).countP
      (fun f => decide (f.r = P ∧ f.injectionVersion = iv)) = 0 := by
  rw [List.countP_eq_zero]
  intro f hf
  obtain ⟨hiv, -, -⟩ := mem_crossJoin.mp hf
  simp only [decide_eq_true_eq, not_and]
  intro _ hfiv
  exact h (hfiv ▸ hiv)

theorem countP_riv_crossJoin_le_one {P : Instance} {iv : List Char}
    {recs : List podVersion} {ivs : List (List Char)} (hnd : ivs.Nodup)
    (hrec : recs.countP (fun q => decide (q.Resource = P)) ≤ 1) :
    (crossJoin recs ivs).countP
      (fun f => decide (f.r = P ∧ f.injectionVersion = iv)) ≤ 1 := by
  induction ivs with
  | nil => simp [crossJoin]
  | cons iv' ivs ih =>
    rw [List.nodup_cons] at hnd
    simp only [crossJoin, List.countP_append]
    have hinner := countP_riv_crossJoinInner_le P iv iv' recs
    by_cases h : iv' = iv
    · subst h
      rw [if_pos rfl] at hinner
      have hrest : (crossJoin recs ivs).countP
          (fun f => decide (f.r = P ∧ f.injectionVersion = iv')) = 0 :=
        countP_riv_crossJoin_eq_zero hnd.1
      omega
    · rw [if_neg h] at hinner
      have hrest := ih hnd.2
      omega

/-! ### The claims -/

/-- C2: for every namespace N whose label mapping does not contain the
injection-enable label with the exact enabling value, no pod whose namespace
is N ever produces a finding, regardless of that pod's proxy version. -/
theorem nonenabled_namespace_no_findings
    (nss pods : List Instance) (fs : List Finding) (N : String)
    (hns : ∀ r ∈ nss, r.metadata.fullName = N →
      lookupOrEmpty r.metadata.labels InjectionLabelName ≠ InjectionLabelEnableValue)
    (hA : Analyze nss pods = some fs) :
    ∀ f ∈ fs, ∀ p, f.r.message = Message.pod p → p.getNamespace ≠ N := by
  obtain ⟨l, hl, rfl⟩ := Analyze_some_iff.mp hA
  intro f hf p hmsg hN
  obtain ⟨-, hrec, -⟩ := mem_crossJoin.mp hf
  obtain ⟨rp, hrp, hnsmem, -, hq⟩ := mem_podVersionsOf.mp hrec
  have hres : f.r = rp.1 := resource_of_mem_proxyRecords hq
  have hpodmem := (toPodList_mem hl rp.1 rp.2).mp hrp
  have hpp : rp.2 = p := by
    have h1 := hpodmem.2
    rw [← hres, hmsg] at h1
    exact (Message.pod.inj h1).symm
  rw [hpp, hN] at hnsmem
  obtain ⟨r', hr', hlab, hfull⟩ := mem_injectedNamespaces.mp hnsmem
  exact hns r' hr' hfull hlab

/-- Witness for C2: on a snapshot with the enabled namespace `default` and a
mismatching workload pod, the reported pod is not in the unlabeled namespace
`other`. -/
theorem nonenabled_namespace_no_findings_witness :
    workPod11.getNamespace ≠ "other" := by
  have h := nonenabled_namespace_no_findings [sampleNs] [injRes12, workRes11]
    [⟨workRes11, v110, v120⟩] "other" (by decide) (by decide)
  exact h ⟨workRes11, v110, v120⟩ (by decide) workPod11 (by decide)

/-- C3: for every pod carrying a non-empty proxy-image override annotation,
no finding is ever produced naming that pod, even when its proxy version
differs from every injector version. -/
theorem override_annotation_no_findings
    (nss pods : List Instance) (fs : List Finding) (P : Instance)
    (hov : lookupOrEmpty P.metadata.annotations proxyImageAnnotationKey ≠ "")
    (hA : Analyze nss pods = some fs) :
    ∀ f ∈ fs, f.r ≠ P := by
  obtain ⟨l, hl, rfl⟩ := Analyze_some_iff.mp hA
  intro f hf hfP
  obtain ⟨-, hrec, -⟩ := mem_crossJoin.mp hf
  obtain ⟨rp, -, -, hov', hq⟩ := mem_podVersionsOf.mp hrec
  have hres : f.r = rp.1 := resource_of_mem_proxyRecords hq
  have hrpP : rp.1 = P := by rw [← hres]; exact hfP
  exact hov (hrpP ▸ hov')

/-- Witness for C3: with the overridden pod present alongside a mismatching
workload pod, the one finding names the workload pod, not the overridden
one. -/
theorem override_annotation_no_findings_witness :
    (⟨workRes11, v110, v120⟩ : Finding).r ≠ ovrRes := by
  have h := override_annotation_no_findings [sampleNs] [injRes12, ovrRes, workRes11]
    [⟨workRes11, v110, v120⟩] ovrRes (by decide) (by decide)
  exact h ⟨workRes11, v110, v120⟩ (by decide)

/-- C4: an image reference with zero colons or two or more colons parses to
the empty (unknown) version, and no finding ever carries an empty observed
or expected version (unknown-version pods and injectors never participate in
comparisons). -/
theorem image_tag_parsing_unparseable :
    (∀ c : Container, c.image.data.count ':' ≠ 1 → getContainerNameVersion c = []) ∧
    (∀ nss pods fs, Analyze nss pods = some fs →
      ∀ f ∈ fs, f.proxyVersion ≠ [] ∧ f.injectionVersion ≠ []) := by
  constructor
  · exact fun c h => getContainerNameVersion_eq_nil h
  · intro nss pods fs hA f hf
    obtain ⟨l, hl, rfl⟩ := Analyze_some_iff.mp hA
    obtain ⟨hiv, hrec, -⟩ := mem_crossJoin.mp hf
    constructor
    · obtain ⟨rp, -, -, -, hq⟩ := mem_podVersionsOf.mp hrec
      obtain ⟨c, -, -, hcv, hq'⟩ := mem_proxyRecords.mp hq
      have hpv : f.proxyVersion = getContainerNameVersion c :=
        congrArg podVersion.ProxyVersion hq'
      rw [hpv]
      exact hcv
    · exact (mem_injectorVersionsOf.mp hiv).1

/-- Witness for C4: a registry-port image reference (two colons) parses to
no version, and the concrete finding of a sample run has non-empty
versions. -/
theorem image_tag_parsing_unparseable_witness :
    getContainerNameVersion ⟨istioProxyName, "host:5000/repo:tag"⟩ = [] ∧
      ((⟨workRes11, v110, v120⟩ : Finding).proxyVersion ≠ [] ∧
        (⟨workRes11, v110, v120⟩ : Finding).injectionVersion ≠ []) := by
  refine ⟨image_tag_parsing_unparseable.1 _ (by decide), ?_⟩
  exact image_tag_parsing_unparseable.2 [sampleNs] [injRes12, workRes11]
    [⟨workRes11, v110, v120⟩] (by decide) ⟨workRes11, v110, v120⟩ (by decide)

/-- C5: if no pod anywhere in the snapshot is identified as an injector pod
with a parseable (non-empty) image version, the check produces zero
findings, regardless of the eligible workload pods. -/
theorem no_injector_no_findings
    (nss pods : List Instance) (fs : List Finding)
    (hinj : ∀ r ∈ pods, ∀ p, r.message = Message.pod p →
      tryReturnSidecarInjectorVersion p = [])
    (hA : Analyze nss pods = some fs) :
    fs = [] := by
  obtain ⟨l, hl, rfl⟩ := Analyze_some_iff.mp hA
  rw [List.eq_nil_iff_forall_not_mem]
  intro f hf
  obtain ⟨hiv, -, -⟩ := mem_crossJoin.mp hf
  obtain ⟨hne, rp, hrp, htr⟩ := mem_injectorVersionsOf.mp hiv
  have hp := (toPodList_mem hl rp.1 rp.2).mp hrp
  exact hne (by rw [← htr]; exact hinj rp.1 hp.1 rp.2 hp.2)

/-- Witness for C5: a snapshot holding only an eligible workload pod with a
parseable proxy version and no injector yields the empty finding list. -/
theorem no_injector_no_findings_witness :
    Analyze [sampleNs] [workRes11] = some [] ∧ ([] : List Finding) = [] := by
  have hinj : ∀ r ∈ [workRes11], ∀ p, r.message = Message.pod p →
      tryReturnSidecarInjectorVersion p = [] := by
    intro r hr p hp
    simp only [List.mem_cons, List.not_mem_nil, or_false] at hr
    subst hr
    have hp' : Message.pod workPod11 = Message.pod p := hp
    obtain rfl := Message.pod.inj hp'
    decide
  exact ⟨by decide, no_injector_no_findings [sampleNs] [workRes11] [] hinj (by decide)⟩

/-- C9: on every snapshot of the declared input shape (every resource of the
Pod collection carries a Pod payload), the check completes without the
failure path of the typed-payload extraction; all other exceptional
conditions are skip-and-continue. -/
theorem analyze_total_on_shape
    (nss pods : List Instance)
    (hshape : ∀ r ∈ pods, ∃ p, r.message = Message.pod p) :
    ∃ fs, Analyze nss pods = some fs := by
  obtain ⟨l, hl⟩ := toPodList_of_shape hshape
  rw [Analyze_eq, hl]
  exact ⟨_, rfl⟩

/-- Witness for C9: the sample snapshot completes. -/
theorem analyze_total_on_shape_witness :
    (Analyze [sampleNs] [injRes12, workRes11]).isSome = true := by
  have hshape : ∀ r ∈ [injRes12, workRes11], ∃ p, r.message = Message.pod p := by
    intro r hr
    simp only [List.mem_cons, List.not_mem_nil, or_false] at hr
    rcases hr with rfl | rfl
    · exact ⟨injPod12, rfl⟩
    · exact ⟨workPod11, rfl⟩
  obtain ⟨fs, h⟩ := analyze_total_on_shape [sampleNs] [injRes12, workRes11] hshape
  rw [h]
  rfl

/-- C1: for a pod recorded exactly once with proxy version pv, exactly one
finding (pod, pv, iv) is emitted for each distinct injector version iv with
iv ≠ pv and none for iv = pv; the total number of findings naming the pod is
the number of injector versions differing from pv. -/
theorem cross_join_multiplicity
    (nss pods : List Instance) (l : List (Instance × Pod)) (fs : List Finding)
    (P : Instance) (pv : List Char)
    (hA : Analyze nss pods = some fs)
    (hl : toPodList pods = some l)
    (hcnt : (podVersionsOf (injectedNamespaces nss) l).count ⟨P, pv⟩ = 1)
    (hone : ∀ q ∈ podVersionsOf (injectedNamespaces nss) l,
      q.Resource = P → q = ⟨P, pv⟩) :
    (∀ iv, fs.count ⟨P, pv, iv⟩ =
        if iv ∈ injectorVersionsOf l ∧ pv ≠ iv then 1 else 0) ∧
      fs.countP (fun f => decide (f.r = P)) =
        ((injectorVersionsOf l).filter (fun x => decide (x ≠ pv))).length := by
  obtain ⟨l', hl', rfl⟩ := Analyze_some_iff.mp hA
  rw [hl'] at hl
  injection hl with hll
  subst hll
  constructor
  · intro iv
    rw [count_crossJoin P pv iv _ nodup_injectorVersionsOf, hcnt]
  · exact countP_r_crossJoin P pv _ _ hone hcnt

/-- Witness for C1: with injector versions 1.2.0 and 1.3.0 and a workload
pod at 1.2.0, exactly one finding is produced, against 1.3.0 only. -/
theorem cross_join_multiplicity_witness :
    (List.count (⟨workRes12, v120, v130⟩ : Finding) [⟨workRes12, v120, v130⟩] =
      if v130 ∈ injectorVersionsOf
            [(injRes12, injPod12), (injRes13, injPod13), (workRes12, workPod12)] ∧
          v120 ≠ v130 then 1 else 0) ∧
    (List.count (⟨workRes12, v120, v120⟩ : Finding) [⟨workRes12, v120, v130⟩] =
      if v120 ∈ injectorVersionsOf
            [(injRes12, injPod12), (injRes13, injPod13), (workRes12, workPod12)] ∧
          v120 ≠ v120 then 1 else 0) ∧
    List.countP (fun f : Finding => decide (f.r = workRes12))
        [(⟨workRes12, v120, v130⟩ : Finding)] =
      ((injectorVersionsOf
          [(injRes12, injPod12), (injRes13, injPod13), (workRes12, workPod12)]).filter
        (fun x => decide (x ≠ v120))).length := by
  have h := cross_join_multiplicity [sampleNs] [injRes12, injRes13, workRes12]
    [(injRes12, injPod12), (injRes13, injPod13), (workRes12, workPod12)]
    [⟨workRes12, v120, v130⟩] workRes12 v120
    (by decide) (by decide) (by decide) (by decide)
  exact ⟨h.1 v130, h.1 v120, h.2⟩

/-- C6 counterexample: a pod whose spec holds two containers named
istio-proxy (the code appends one record per matching container) is reported
twice for the same (pod, injector-version) pair, so the claimed bound fails
as stated. -/
theorem duplicate_pair_counterexample :
    ((Analyze [sampleNs] [injRes12, dupRes]).getD []).count
      (⟨dupRes, v110, v120⟩ : Finding) = 2 := by decide

/-- C6 amended: on snapshots whose pod resources are pairwise distinct and
whose pods each hold at most one container named istio-proxy, at most one
finding is produced per (pod, injector-version) pair. -/
theorem duplication_bound_amended
    (nss pods : List Instance) (l : List (Instance × Pod)) (fs : List Finding)
    (hA : Analyze nss pods = some fs) (hl : toPodList pods = some l)
    (hnd : (l.map Prod.fst).Nodup)
    (hone : ∀ rp ∈ l,
      rp.2.containers.countP (fun c => decide (c.name = istioProxyName)) ≤ 1) :
    ∀ (P : Instance) (iv : List Char),
      fs.countP (fun f => decide (f.r = P ∧ f.injectionVersion = iv)) ≤ 1 := by
  obtain ⟨l', hl', rfl⟩ := Analyze_some_iff.mp hA
  rw [hl'] at hl
  injection hl with hll
  subst hll
  intro P iv
  exact countP_riv_crossJoin_le_one nodup_injectorVersionsOf
    (countP_r_podVersionsOf_le_one hnd hone)

/-- Witness for C6 (amended): on the well-formed sample snapshot the pair
(workload pod, 1.2.0) is reported at most once. -/
theorem duplication_bound_amended_witness :
    List.countP (fun f => decide (f.r = workRes11 ∧ f.injectionVersion = v120))
      [(⟨workRes11, v110, v120⟩ : Finding)] ≤ 1 := by
  have h := duplication_bound_amended [sampleNs] [injRes12, workRes11]
    [(injRes12, injPod12), (workRes11, workPod11)] [⟨workRes11, v110, v120⟩]
    (by decide) (by decide) (by decide) (by decide)
  exact h workRes11 v120

/-- C7: every pod whose app label equals the injector label value and whose
first injector-named container has a parseable image version contributes
that version to the injector version set, with no condition on the pod's
namespace or its own eligibility as a checked workload. -/
theorem injector_detection_namespace_independent
    (pods : List Instance) (l : List (Instance × Pod)) (r : Instance) (p : Pod)
    (c : Container) (v : List Char)
    (hl : toPodList pods = some l)
    (hr : r ∈ pods) (hmsg : r.message = Message.pod p)
    (happ : lookupOrEmpty p.labels "app" = sidecarInjectorName)
    (hfind : p.containers.find? (fun c => c.name == injectorName) = some c)
    (hv : getContainerNameVersion c = v) (hne : v ≠ []) :
    v ∈ injectorVersionsOf l := by
  rw [mem_injectorVersionsOf]
  refine ⟨hne, (r, p), (toPodList_mem hl r p).mpr ⟨hr, hmsg⟩, ?_⟩
  unfold tryReturnSidecarInjectorVersion
  rw [if_neg (by simp [happ]), findInjectorContainerVersion_eq, hfind]
  exact hv

/-- Witness for C7: an injector pod whose namespace appears in no namespace
resource at all still contributes its version 1.2.0. -/
theorem injector_detection_namespace_independent_witness :
    v120 ∈ injectorVersionsOf [(injRes12, injPod12)] :=
  injector_detection_namespace_independent [injRes12] [(injRes12, injPod12)]
    injRes12 injPod12 ⟨injectorName, "docker.io/istio/sidecar_injector:1.2.0"⟩ v120
    (by decide) (by decide) rfl (by decide) (by decide) (by decide) (by decide)

/-- C10: an injector pod is not exempt from the workload check: an injector
pod in an injection-enabled namespace without an override annotation, with a
proxy-named container of parseable version pv, is recorded as a workload and
a finding is produced against every distinct injector version other than
pv. -/
theorem injector_pod_not_exempt
    (nss pods : List Instance) (l : List (Instance × Pod)) (fs : List Finding)
    (r : Instance) (p : Pod) (c : Container) (pv : List Char)
    (hA : Analyze nss pods = some fs) (hl : toPodList pods = some l)
    (hr : r ∈ pods) (hmsg : r.message = Message.pod p)
    (_hinj : tryReturnSidecarInjectorVersion p ≠ [])
    (hns : p.getNamespace ∈ injectedNamespaces nss)
    (hov : lookupOrEmpty r.metadata.annotations proxyImageAnnotationKey = "")
    (hc : c ∈ p.containers) (hcn : c.name = istioProxyName)
    (hcv : getContainerNameVersion c = pv) (hpv : pv ≠ []) :
    (⟨r, pv⟩ : podVersion) ∈ podVersionsOf (injectedNamespaces nss) l ∧
      ∀ iv ∈ injectorVersionsOf l, iv ≠ pv → (⟨r, pv, iv⟩ : Finding) ∈ fs := by
  obtain ⟨l', hl', rfl⟩ := Analyze_some_iff.mp hA
  rw [hl'] at hl
  injection hl with hll
  subst hll
  have hrec : (⟨r, pv⟩ : podVersion) ∈ podVersionsOf (injectedNamespaces nss) l' :=
    mem_podVersionsOf.mpr ⟨(r, p), (toPodList_mem hl' r p).mpr ⟨hr, hmsg⟩, hns, hov,
      mem_proxyRecords.mpr ⟨c, hc, hcn, by rw [hcv]; exact hpv, by rw [hcv]⟩⟩
  exact ⟨hrec, fun iv hiv hne => mem_crossJoin.mpr ⟨hiv, hrec, Ne.symm hne⟩⟩

/-- Witness for C10: a pod that is at once the 1.2.0 injector and an
eligible workload with proxy version 1.1.0 is recorded and reported against
version 1.2.0. -/
theorem injector_pod_not_exempt_witness :
    (⟨dualRes, v110⟩ : podVersion) ∈
        podVersionsOf (injectedNamespaces [sampleNs]) [(dualRes, dualPod)] ∧
      (⟨dualRes, v110, v120⟩ : Finding) ∈ [(⟨dualRes, v110, v120⟩ : Finding)] := by
  have h := injector_pod_not_exempt [sampleNs] [dualRes] [(dualRes, dualPod)]
    [⟨dualRes, v110, v120⟩] dualRes dualPod
    ⟨istioProxyName, "docker.io/istio/proxyv2:1.1.0"⟩ v110
    (by decide) (by decide) (by decide) rfl (by decide) (by decide) (by decide)
    (by decide) (by decide) (by decide) (by decide)
  exact ⟨h.1, h.2 v120 (by decide) (by decide)⟩

/-- C8: the finding set is a function of the snapshot alone: two runs over
the same resources — in any iteration order the snapshot provider or the Go
map ranging may produce — yield the same set of (pod, observed, expected)
triples. -/
theorem analyze_deterministic_set
    (nss₁ nss₂ pods₁ pods₂ : List Instance) (fs₁ fs₂ : List Finding)
    (hn : nss₁.Perm nss₂) (hp : pods₁.Perm pods₂)
    (h1 : Analyze nss₁ pods₁ = some fs₁) (h2 : Analyze nss₂ pods₂ = some fs₂) :
    fs₁.toFinset = fs₂.toFinset := by
  obtain ⟨l₁, hl₁, rfl⟩ := Analyze_some_iff.mp h1
  obtain ⟨l₂, hl₂, rfl⟩ := Analyze_some_iff.mp h2
  have hliff : ∀ rp : Instance × Pod, rp ∈ l₁ ↔ rp ∈ l₂ := by
    intro rp
    exact (toPodList_mem hl₁ rp.1 rp.2).trans
      (Iff.trans (and_congr_left' hp.mem_iff) (toPodList_mem hl₂ rp.1 rp.2).symm)
  have hnsiff : ∀ N, N ∈ injectedNamespaces nss₁ ↔ N ∈ injectedNamespaces nss₂ := by
    intro N
    rw [mem_injectedNamespaces, mem_injectedNamespaces]
    constructor
    · rintro ⟨r', hr', hprops⟩
      exact ⟨r', hn.mem_iff.mp hr', hprops⟩
    · rintro ⟨r', hr', hprops⟩
      exact ⟨r', hn.mem_iff.mpr hr', hprops⟩
  have hiviff : ∀ v, v ∈ injectorVersionsOf l₁ ↔ v ∈ injectorVersionsOf l₂ := by
    intro v
    rw [mem_injectorVersionsOf, mem_injectorVersionsOf]
    constructor
    · rintro ⟨hv, rp, hrp, htr⟩
      exact ⟨hv, rp, (hliff rp).mp hrp, htr⟩
    · rintro ⟨hv, rp, hrp, htr⟩
      exact ⟨hv, rp, (hliff rp).mpr hrp, htr⟩
  have hreciff : ∀ q : podVersion,
      q ∈ podVersionsOf (injectedNamespaces nss₁) l₁ ↔
        q ∈ podVersionsOf (injectedNamespaces nss₂) l₂ := by
    intro q
    rw [mem_podVersionsOf, mem_podVersionsOf]
    constructor
    · rintro ⟨rp, hrp, hnsm, hov, hq⟩
      exact ⟨rp, (hliff rp).mp hrp, (hnsiff _).mp hnsm, hov, hq⟩
    · rintro ⟨rp, hrp, hnsm, hov, hq⟩
      exact ⟨rp, (hliff rp).mpr hrp, (hnsiff _).mpr hnsm, hov, hq⟩
  ext f
  simp only [List.mem_toFinset]
  rw [mem_crossJoin, mem_crossJoin]
  constructor
  · rintro ⟨ha, hb, hc⟩
    exact ⟨(hiviff _).mp ha, (hreciff _).mp hb, hc⟩
  · rintro ⟨ha, hb, hc⟩
    exact ⟨(hiviff _).mpr ha, (hreciff _).mpr hb, hc⟩

/-- Witness for C8: two genuinely reordered runs over the same snapshot
produce the same finding set. -/
theorem analyze_deterministic_set_witness :
    (([(⟨workRes11, v110, v120⟩ : Finding)]).toFinset =
      ([(⟨workRes11, v110, v120⟩ : Finding)]).toFinset) :=
  analyze_deterministic_set [sampleNs, nsOther] [nsOther, sampleNs]
    [injRes12, workRes11] [workRes11, injRes12]
    [⟨workRes11, v110, v120⟩] [⟨workRes11, v110, v120⟩]
    (by decide) (by decide) (by decide) (by decide)

end IstioInjection
